import Mathlib

/-!
Verification of the Fourier-domain Gaussian-process reparameterization engine in
`gptools-util/gptools/util/fft.py`.

Arrays with a trailing axis of known length are embedded as functions `ℕ → ℝ` (or
`ℕ → ℂ`) together with an explicit size parameter; entries beyond the declared size are
irrelevant to every statement, which is always bounded by the size.  Floating-point
numbers are modelled as real numbers, so the module constants `sqrt2`, `log2` and
`log2pi` stand for the exact quantities the source approximates.  The NumPy real FFT
`np.fft.rfft` is the unnormalized discrete Fourier transform of a real signal restricted
to the first `n / 2 + 1` frequencies, and `np.fft.irfft` is the inverse transform that
rebuilds the full spectrum by Hermitian symmetry (ignoring the imaginary parts of the
zero-frequency and Nyquist bins, as the underlying c2r transform never reads them).
-/

open Finset

/-- Module constant `sqrt2` of `fft.py` (the float `1.4142135623730951`), i.e. `√2`. -/
noncomputable def sqrt2 : ℝ := Real.sqrt 2

/-- Module constant `log2` of `fft.py` (the float `0.6931471805599453`), i.e. `log 2`. -/
noncomputable def log2 : ℝ := Real.log 2

/-- Module constant `log2pi` of `fft.py`, i.e. `log (2 π)`. -/
noncomputable def log2pi : ℝ := Real.log (2 * Real.pi)

/-- Unnormalized discrete Fourier transform of length `n`, entry `k`:
`(dft f n) k = ∑_{j<n} f j · exp (-2 π i j k / n)`. -/
noncomputable def dft (f : ℕ → ℂ) (n k : ℕ) : ℂ :=
  ∑ j ∈ Finset.range n, f j * Complex.exp (-(2 * (Real.pi : ℂ) * Complex.I) * j * k / n)

/-- Embedding of `np.fft.rfft` applied to a real signal of length `n`: the entries
`k ≤ n / 2` of the full DFT (entries beyond the Nyquist index are never consumed). -/
noncomputable def rfft (y : ℕ → ℝ) (n k : ℕ) : ℂ :=
  dft (fun j => (y j : ℂ)) n k

/-- Hermitian extension of the half spectrum consumed by `np.fft.irfft`: entry `k` is
taken verbatim for `k ≤ n / 2` and mirrored by conjugation for larger `k`. -/
noncomputable def extendRfft (c : ℕ → ℂ) (n k : ℕ) : ℂ :=
  if k ≤ n / 2 then c k else (starRingEnd ℂ) (c (n - k))

/-- Embedding of `np.fft.irfft c n`: the inverse DFT of the Hermitian extension of `c`,
divided by `n`.  Taking the real part after the Hermitian extension reproduces the c2r
behaviour of never reading the imaginary parts of the zero-frequency and Nyquist bins. -/
noncomputable def irfft (c : ℕ → ℂ) (n j : ℕ) : ℝ :=
  (∑ k ∈ Finset.range n, extendRfft c n k *
    Complex.exp (2 * (Real.pi : ℂ) * Complex.I * k * j / n)).re / n

/-- Embedding of `unpack_rfft(z, size)` from `fft.py`: the concatenation of the
`size // 2 + 1` real parts of `z` with the imaginary parts of the strictly complex
coefficients `z[1 : (size - 1) // 2 + 1]`. -/
def unpack_rfft (z : ℕ → ℂ) (size : ℕ) : ℕ → ℝ := fun i =>
  if i ≤ size / 2 then (z i).re else (z (i - size / 2)).im

/-- Embedding of `pack_rfft(z)` (with `full_fft=False`) from `fft.py` for an unpacked
real vector of length `size`: coefficient `k` has real part `z k` and, for
`1 ≤ k ≤ (size - 1) // 2`, imaginary part `z (size // 2 + k)`. -/
def pack_rfft (z : ℕ → ℝ) (size : ℕ) : ℕ → ℂ := fun k =>
  (z k : ℂ) + Complex.I * (if 1 ≤ k ∧ k ≤ (size - 1) / 2 then ((z (size / 2 + k) : ℝ) : ℂ) else 0)

/-- Embedding of `pack_rfft(z, full_fft=True)` from `fft.py`: the reduced coefficients
followed by the conjugate-reversed strictly complex block, so that entry `k > size // 2`
is the conjugate of entry `size - k`. -/
def pack_rfft_full (z : ℕ → ℝ) (size : ℕ) : ℕ → ℂ := fun k =>
  if k ≤ size / 2 then pack_rfft z size k else (starRingEnd ℂ) (pack_rfft z size (size - k))

/-- Helper: packing an unpacked half spectrum reproduces the original coefficients on
the non-redundant range provided the real-only bins (index 0 and, for even size, the
Nyquist index) carried no imaginary part. -/
lemma pack_unpack_rfft (z : ℕ → ℂ) (n k : ℕ) (hk : k ≤ n / 2)
    (h0 : (z 0).im = 0) (hny : n % 2 = 0 → (z (n / 2)).im = 0) :
    pack_rfft (unpack_rfft z n) n k = z k := by
  unfold pack_rfft unpack_rfft
  by_cases hc : 1 ≤ k ∧ k ≤ (n - 1) / 2
  · rw [if_pos hc, if_pos hk, if_neg (by omega : ¬ n / 2 + k ≤ n / 2),
      (by omega : n / 2 + k - n / 2 = k)]
    apply Complex.ext <;> simp
  · rw [if_neg hc, if_pos hk]
    have hk0 : k = 0 ∨ (n % 2 = 0 ∧ k = n / 2) := by omega
    rcases hk0 with rfl | ⟨he, rfl⟩
    · apply Complex.ext <;> simp [h0]
    · apply Complex.ext <;> simp [hny he]

/-- C3: for every real vector `z` of length `n` (any parity of `n`),
`unpack_rfft (pack_rfft z) n` returns `z` elementwise: the 1D coefficient codec
round-trips. -/
theorem unpack_pack_rfft_roundtrip (n : ℕ) (z : ℕ → ℝ) (i : ℕ) (hi : i < n) :
    unpack_rfft (pack_rfft z n) n i = z i := by
  unfold unpack_rfft pack_rfft
  by_cases hc : i ≤ n / 2
  · rw [if_pos hc]
    simp [apply_ite Complex.re, Complex.mul_re]
  · rw [if_neg hc, if_pos (by omega : 1 ≤ i - n / 2 ∧ i - n / 2 ≤ (n - 1) / 2),
      (by omega : n / 2 + (i - n / 2) = i)]
    simp

/-- Witness for C3 at `n = 3`, `z = (0, 1, 2)`. -/
theorem unpack_pack_rfft_roundtrip_witness :
    2 < 3 ∧ unpack_rfft (pack_rfft (fun i => (i : ℝ)) 3) 3 2 = 2 :=
  ⟨by norm_num, by simpa using unpack_pack_rfft_roundtrip 3 (fun i => (i : ℝ)) 2 (by norm_num)⟩

/-- C9: packed coefficients have zero imaginary part at index 0 and (for even size) at
the Nyquist index `size / 2`; the imaginary parts at indices `1 .. (size - 1) / 2` are
the tail `z (size / 2 + k)` of the unpacked vector, and the real parts of all
`size / 2 + 1` coefficients are the head of the unpacked vector. -/
theorem pack_rfft_invariants (n : ℕ) (z : ℕ → ℝ) :
    (pack_rfft z n 0).im = 0
      ∧ (n % 2 = 0 → (pack_rfft z n (n / 2)).im = 0)
      ∧ (∀ k, 1 ≤ k → k ≤ (n - 1) / 2 → (pack_rfft z n k).im = z (n / 2 + k))
      ∧ (∀ k, k ≤ n / 2 → (pack_rfft z n k).re = z k) := by
  refine ⟨?_, ?_, ?_, ?_⟩
  · rw [pack_rfft, if_neg (by omega : ¬ (1 ≤ 0 ∧ 0 ≤ (n - 1) / 2))]
    simp
  · intro he
    rw [pack_rfft, if_neg (by omega : ¬ (1 ≤ n / 2 ∧ n / 2 ≤ (n - 1) / 2))]
    simp
  · intro k h1 h2
    rw [pack_rfft, if_pos ⟨h1, h2⟩]
    simp
  · intro k _
    rw [pack_rfft]
    simp [apply_ite Complex.re, Complex.mul_re]

/-- Witness for C9 at `n = 4`, `z = (0, 1, 2, 3)`. -/
theorem pack_rfft_invariants_witness :
    (pack_rfft (fun i => (i : ℝ)) 4 0).im = 0
      ∧ (pack_rfft (fun i => (i : ℝ)) 4 1).im = 3
      ∧ (pack_rfft (fun i => (i : ℝ)) 4 2).re = 2 :=
  ⟨(pack_rfft_invariants 4 (fun i => (i : ℝ))).1,
    by simpa using (pack_rfft_invariants 4 (fun i => (i : ℝ))).2.2.1 1 (by norm_num) (by norm_num),
    by simpa using (pack_rfft_invariants 4 (fun i => (i : ℝ))).2.2.2 2 (by norm_num)⟩

/-- Concrete half spectrum with a nonzero imaginary part in the zero-frequency bin,
exercising the lossy direction of the reverse codec round trip. -/
def zHermitianCounter : ℕ → ℂ := fun _ => Complex.I

/-- C10: the reverse codec round trip `pack_rfft (unpack_rfft z size) = z` holds exactly
on Hermitian-consistent inputs (zero imaginary part at index 0 and, for even size, at
the Nyquist index), and fails for a spectrum whose zero-frequency bin has a nonzero
imaginary part, because `unpack_rfft` discards the imaginary parts of the real-only
frequencies. -/
theorem pack_unpack_rfft_hermitian :
    (∀ (n : ℕ) (z : ℕ → ℂ), (z 0).im = 0 → (n % 2 = 0 → (z (n / 2)).im = 0) →
        ∀ k, k ≤ n / 2 → pack_rfft (unpack_rfft z n) n k = z k)
      ∧ pack_rfft (unpack_rfft zHermitianCounter 2) 2 0 ≠ zHermitianCounter 0 := by
  constructor
  · intro n z h0 hny k hk
    exact pack_unpack_rfft z n k hk h0 hny
  · unfold pack_rfft unpack_rfft zHermitianCounter
    norm_num
    intro h
    simpa using congrArg Complex.im h

/-- Witness for C10, applying the Hermitian-consistent direction at the constant real
spectrum of size 4. -/
theorem pack_unpack_rfft_hermitian_witness :
    pack_rfft (unpack_rfft (fun _ => (1 : ℂ)) 4) 4 0 = 1 :=
  pack_unpack_rfft_hermitian.1 4 (fun _ => 1) (by simp) (fun _ => by simp) 0 (by norm_num)

/-- Embedding of `evaluate_rfft_scale(cov=cov)` from `fft.py` for an unbatched
covariance row of length `size`: `sqrt(size * rfft(cov).real / 2)`, with the
zero-frequency entry (`scale[0] *= sqrt2`) and, for even size, the Nyquist entry
(`scale[..., -1] *= sqrt2`) rescaled by `√2`. -/
noncomputable def evaluate_rfft_scale (cov : ℕ → ℝ) (size : ℕ) : ℕ → ℝ := fun k =>
  Real.sqrt (size * (rfft cov size k).re / 2)
    * (if k = 0 then sqrt2 else 1)
    * (if size % 2 = 0 ∧ k = size / 2 then sqrt2 else 1)

/-- Embedding of `evaluate_rfft_scale(cov=cov)` from `fft.py` for a covariance array
with one leading batch axis (batch index `b`, frequency index `k`).  The in-place
update `scale[0] *= sqrt2` indexes the *batch* axis, so it rescales every frequency of
batch element 0 instead of the zero-frequency entry of every batch element, while
`scale[..., -1] *= sqrt2` correctly rescales the Nyquist entry of every batch element
when the size is even. -/
noncomputable def evaluate_rfft_scale_batched (cov : ℕ → ℕ → ℝ) (size : ℕ) :
    ℕ → ℕ → ℝ := fun b k =>
  Real.sqrt (size * (rfft (cov b) size k).re / 2)
    * (if b = 0 then sqrt2 else 1)
    * (if size % 2 = 0 ∧ k = size / 2 then sqrt2 else 1)

/-- Batched covariance input (two identical batch rows `[1, 0, 0, 0]` of length 4)
witnessing that `evaluate_rfft_scale` does not apply the claimed per-batch-element
rescaling. -/
def covBatchCounter : ℕ → ℕ → ℝ := fun _ j => if j = 0 then 1 else 0

/-- Helper: the real Fourier transform of the covariance row `[1, 0, 0, 0]` is
identically 1. -/
lemma rfft_covBatchCounter (b k : ℕ) : rfft (covBatchCounter b) 4 k = 1 := by
  unfold rfft dft covBatchCounter
  rw [Finset.sum_range_succ, Finset.sum_range_succ, Finset.sum_range_succ,
    Finset.sum_range_succ]
  norm_num

/-- C4: refuted on the code.  For a covariance input with a leading batch shape, the
claim says the zero-frequency entry of *every* batch element is rescaled by `√2`; the
code's `scale[0] *= sqrt2` instead rescales the whole first batch slice, so at batch
element 0, frequency 1 of `covBatchCounter` the code yields `2` whereas the claimed
per-batch-element formula (the unbatched `evaluate_rfft_scale` of that batch row)
yields `√2`. -/
theorem rfft_scale_batch_code_bug :
    evaluate_rfft_scale_batched covBatchCounter 4 0 1 = 2
      ∧ evaluate_rfft_scale (covBatchCounter 0) 4 1 = Real.sqrt 2
      ∧ evaluate_rfft_scale_batched covBatchCounter 4 0 1
        ≠ evaluate_rfft_scale (covBatchCounter 0) 4 1 := by
  have h1 : evaluate_rfft_scale_batched covBatchCounter 4 0 1 = 2 := by
    unfold evaluate_rfft_scale_batched
    rw [rfft_covBatchCounter]
    norm_num [sqrt2]
  have h2 : evaluate_rfft_scale (covBatchCounter 0) 4 1 = Real.sqrt 2 := by
    unfold evaluate_rfft_scale
    rw [rfft_covBatchCounter]
    norm_num
  refine ⟨h1, h2, ?_⟩
  rw [h1, h2]
  have : Real.sqrt 2 < 2 := by
    rw [Real.sqrt_lt' (by norm_num : (0:ℝ) < 2)]
    norm_num
  exact fun h => absurd h.symm this.ne

/-- Helper: orthogonality of the discrete Fourier characters: for `a, b < n` the sum
`∑_{k<n} exp (2 π i k (a - b) / n)` is `n` when `a = b` and `0` otherwise. -/
lemma exp_sum_orth (n : ℕ) (hn : 0 < n) (a b : ℕ) (ha : a < n) (hb : b < n) :
    ∑ k ∈ Finset.range n,
        Complex.exp (2 * (Real.pi : ℂ) * Complex.I * k * ((a : ℂ) - b) / n)
      = if a = b then (n : ℂ) else 0 := by
  have hnc : (n : ℂ) ≠ 0 := Nat.cast_ne_zero.mpr hn.ne'
  by_cases hab : a = b
  · subst hab
    simp
  · rw [if_neg hab]
    have h2 : (2 * (Real.pi : ℂ) * Complex.I) ≠ 0 := by
      simp [Real.pi_ne_zero, Complex.I_ne_zero, Complex.ofReal_ne_zero]
    have hterm : ∀ k : ℕ,
        Complex.exp (2 * (Real.pi : ℂ) * Complex.I * k * ((a : ℂ) - b) / n)
          = Complex.exp (2 * (Real.pi : ℂ) * Complex.I * ((a : ℂ) - b) / n) ^ k := by
      intro k
      rw [← Complex.exp_nat_mul]
      congr 1
      ring
    have hzeta1 : Complex.exp (2 * (Real.pi : ℂ) * Complex.I * ((a : ℂ) - b) / n) ≠ 1 := by
      intro h
      rw [Complex.exp_eq_one_iff] at h
      obtain ⟨t, ht⟩ := h
      rw [div_eq_iff hnc] at ht
      have ht' : ((a : ℂ) - b) = t * n := by
        apply mul_left_cancel₀ h2
        linear_combination ht
      have htz : (a : ℤ) - b = t * n := by exact_mod_cast ht'
      rcases eq_or_ne t 0 with rfl | ht0
      · rw [zero_mul] at htz
        exact hab (by omega)
      · have h1 : (1 : ℤ) ≤ |t| := Int.one_le_abs ht0
        have habs : |(a : ℤ) - b| < n := abs_lt.mpr ⟨by omega, by omega⟩
        have habs2 : |(a : ℤ) - b| = |t| * n := by
          rw [htz, abs_mul, Int.abs_natCast]
        have hge : (n : ℤ) ≤ |t| * n := le_mul_of_one_le_left (by positivity) h1
        linarith
    have hzn : Complex.exp (2 * (Real.pi : ℂ) * Complex.I * ((a : ℂ) - b) / n) ^ n = 1 := by
      rw [← Complex.exp_nat_mul]
      have h3 : (n : ℂ) * (2 * (Real.pi : ℂ) * Complex.I * ((a : ℂ) - b) / n)
          = ((a : ℤ) - (b : ℤ) : ℤ) * (2 * (Real.pi : ℂ) * Complex.I) := by
        push_cast
        field_simp
        ring
      rw [h3, Complex.exp_int_mul_two_pi_mul_I]
    rw [Finset.sum_congr rfl fun k _ => hterm k, geom_sum_eq hzeta1, hzn]
    simp

/-- Helper: flipping the frequency index across `n` inside a Fourier character only
conjugates it, because `exp (2 π i j) = 1`. -/
lemma exp_arg_flip (n j k : ℕ) (hn : 0 < n) (hk : k ≤ n) :
    Complex.exp (2 * (Real.pi : ℂ) * Complex.I * j * ((n - k : ℕ) : ℂ) / n)
      = Complex.exp (-(2 * (Real.pi : ℂ) * Complex.I) * j * k / n) := by
  have hnc : (n : ℂ) ≠ 0 := Nat.cast_ne_zero.mpr hn.ne'
  have harg : 2 * (Real.pi : ℂ) * Complex.I * j * ((n - k : ℕ) : ℂ) / n
      = (j : ℤ) * (2 * (Real.pi : ℂ) * Complex.I)
        + -(2 * (Real.pi : ℂ) * Complex.I) * j * k / n := by
    rw [Nat.cast_sub hk]
    push_cast
    field_simp
    ring
  rw [harg, Complex.exp_add, Complex.exp_int_mul_two_pi_mul_I, one_mul]

/-- Helper: the DFT of a real signal is Hermitian: the conjugate of entry `n - k` is
entry `k`. -/
lemma conj_dft_ofReal (y : ℕ → ℝ) (n k : ℕ) (hn : 0 < n) (hk : k ≤ n) :
    (starRingEnd ℂ) (dft (fun j => (y j : ℂ)) n (n - k)) = dft (fun j => (y j : ℂ)) n k := by
  unfold dft
  rw [map_sum]
  refine Finset.sum_congr rfl fun j hj => ?_
  rw [map_mul, Complex.conj_ofReal, ← Complex.exp_conj]
  congr 1
  have hconj : (starRingEnd ℂ) (-(2 * (Real.pi : ℂ) * Complex.I) * j * ((n - k : ℕ) : ℂ) / n)
      = 2 * (Real.pi : ℂ) * Complex.I * j * ((n - k : ℕ) : ℂ) / n := by
    simp [map_div₀, map_ofNat]
  rw [hconj, exp_arg_flip n j k hn hk]

/-- Helper: the Hermitian extension of the truncated real FFT recovers the full DFT. -/
lemma extendRfft_rfft (y : ℕ → ℝ) (n k : ℕ) (hn : 0 < n) (hk : k < n) :
    extendRfft (fun i => rfft y n i) n k = dft (fun j => (y j : ℂ)) n k := by
  unfold extendRfft rfft
  split_ifs with h
  · rfl
  · exact conj_dft_ofReal y n k hn hk.le

/-- Helper: Fourier inversion for the full DFT of a real signal. -/
lemma dft_inversion (y : ℕ → ℝ) (n j : ℕ) (hn : 0 < n) (hj : j < n) :
    (∑ k ∈ Finset.range n, dft (fun m => (y m : ℂ)) n k *
        Complex.exp (2 * (Real.pi : ℂ) * Complex.I * k * j / n))
      = (n : ℂ) * y j := by
  have step1 : ∀ k : ℕ,
      dft (fun m => (y m : ℂ)) n k * Complex.exp (2 * (Real.pi : ℂ) * Complex.I * k * j / n)
        = ∑ m ∈ Finset.range n,
            (y m : ℂ) * Complex.exp (2 * (Real.pi : ℂ) * Complex.I * k * ((j : ℂ) - m) / n) := by
    intro k
    unfold dft
    rw [Finset.sum_mul]
    refine Finset.sum_congr rfl fun m hm => ?_
    rw [mul_assoc, ← Complex.exp_add]
    congr 2
    ring
  rw [Finset.sum_congr rfl fun k _ => step1 k, Finset.sum_comm]
  have step2 : ∀ m ∈ Finset.range n,
      (∑ k ∈ Finset.range n,
          (y m : ℂ) * Complex.exp (2 * (Real.pi : ℂ) * Complex.I * k * ((j : ℂ) - m) / n))
        = (y m : ℂ) * (if j = m then (n : ℂ) else 0) := by
    intro m hm
    rw [← Finset.mul_sum, exp_sum_orth n hn j m hj (Finset.mem_range.mp hm)]
  rw [Finset.sum_congr rfl step2, Finset.sum_eq_single j]
  · rw [if_pos rfl]
    ring
  · intro b _ hb
    rw [if_neg (Ne.symm hb), mul_zero]
  · intro hjn
    exact absurd (Finset.mem_range.mpr hj) hjn

/-- Helper: `irfft` inverts `rfft` on real signals. -/
lemma irfft_rfft (y : ℕ → ℝ) (n j : ℕ) (hn : 0 < n) (hj : j < n) :
    irfft (fun k => rfft y n k) n j = y j := by
  unfold irfft
  rw [Finset.sum_congr rfl fun k hk => by
    rw [extendRfft_rfft y n k hn (Finset.mem_range.mp hk)]]
  rw [dft_inversion y n j hn hj]
  simp [Complex.mul_re]
  field_simp

/-- Helper: `irfft` only reads its input on the non-redundant range `k ≤ n / 2`. -/
lemma irfft_congr (c d : ℕ → ℂ) (n j : ℕ) (h : ∀ k, k ≤ n / 2 → c k = d k) :
    irfft c n j = irfft d n j := by
  unfold irfft
  congr 2
  refine Finset.sum_congr rfl fun k hk => ?_
  have hkn := Finset.mem_range.mp hk
  unfold extendRfft
  split_ifs with hsplit
  · rw [h k hsplit]
  · rw [h (n - k) (by omega)]

/-- Helper: the zero-frequency bin of the real FFT has no imaginary part. -/
lemma rfft_im_zero_freq (y : ℕ → ℝ) (n : ℕ) : (rfft y n 0).im = 0 := by
  unfold rfft dft
  rw [Complex.im_sum]
  refine Finset.sum_eq_zero fun j hj => ?_
  simp

/-- Helper: for even `n`, the Nyquist bin of the real FFT has no imaginary part. -/
lemma rfft_im_nyquist (y : ℕ → ℝ) (n : ℕ) (hn : 0 < n) (he : n % 2 = 0) :
    (rfft y n (n / 2)).im = 0 := by
  unfold rfft dft
  rw [Complex.im_sum]
  refine Finset.sum_eq_zero fun j hj => ?_
  have hnc : (n : ℂ) ≠ 0 := Nat.cast_ne_zero.mpr hn.ne'
  have h2 : ((n / 2 : ℕ) : ℂ) * 2 = (n : ℂ) := by
    exact_mod_cast congrArg (Nat.cast : ℕ → ℂ) (by omega : n / 2 * 2 = n)
  have harg : -(2 * (Real.pi : ℂ) * Complex.I) * j * ((n / 2 : ℕ) : ℂ) / n
      = (j : ℕ) * -((Real.pi : ℂ) * Complex.I) := by
    rw [div_eq_iff hnc]
    linear_combination (-((Real.pi : ℂ) * Complex.I * (j : ℂ))) * h2
  rw [harg, Complex.exp_nat_mul]
  have hexp : Complex.exp (-((Real.pi : ℂ) * Complex.I)) = -1 := by
    rw [Complex.exp_neg, Complex.exp_pi_mul_I]
    norm_num
  rw [hexp, show ((-1 : ℂ)) ^ j = (((-1 : ℝ) ^ j : ℝ) : ℂ) by push_cast; ring,
    ← Complex.ofReal_mul, Complex.ofReal_im]

/-- Embedding of `transform_rfft(y, loc, ...)` from `fft.py` with the resolved scale
passed explicitly (the source resolves it from exactly one of `cov` and `rfft_scale`
via `_get_rfft_scale`; the `Except`-level wrappers below model that resolution):
`unpack_rfft(rfft(y - loc) / rfft_scale, size)`. -/
noncomputable def transform_rfft (y loc : ℕ → ℝ) (rfft_scale : ℕ → ℝ) (size : ℕ) : ℕ → ℝ :=
  unpack_rfft (fun k => rfft (fun j => y j - loc j) size k / ((rfft_scale k : ℝ) : ℂ)) size

/-- Embedding of `transform_irfft(z, loc, ...)` from `fft.py` with the resolved scale
passed explicitly: `irfft(pack_rfft(z) * rfft_scale, size) + loc`. -/
noncomputable def transform_irfft (z loc : ℕ → ℝ) (rfft_scale : ℕ → ℝ) (size : ℕ) : ℕ → ℝ :=
  fun j => irfft (fun k => pack_rfft z size k * ((rfft_scale k : ℝ) : ℂ)) size j + loc j

/-- C2: for every realization `y`, mean `loc` and covariance row `cov` whose derived
scale is strictly positive on the non-redundant range, `transform_irfft` inverts
`transform_rfft` exactly (both invoked with the scale derived from `cov`). -/
theorem transform_rfft_irfft_inverse (n : ℕ) (hn : 0 < n) (y loc cov : ℕ → ℝ)
    (hpos : ∀ k, k ≤ n / 2 → 0 < evaluate_rfft_scale cov n k) (j : ℕ) (hj : j < n) :
    transform_irfft (transform_rfft y loc (evaluate_rfft_scale cov n) n) loc
      (evaluate_rfft_scale cov n) n j = y j := by
  unfold transform_irfft transform_rfft
  have hne : ∀ k, k ≤ n / 2 → ((evaluate_rfft_scale cov n k : ℝ) : ℂ) ≠ 0 := fun k hk =>
    Complex.ofReal_ne_zero.mpr (hpos k hk).ne'
  have hw0 : ((fun k => rfft (fun i => y i - loc i) n k
      / ((evaluate_rfft_scale cov n k : ℝ) : ℂ)) 0).im = 0 := by
    simp [rfft_im_zero_freq (fun i => y i - loc i) n]
  have hwn : n % 2 = 0 → ((fun k => rfft (fun i => y i - loc i) n k
      / ((evaluate_rfft_scale cov n k : ℝ) : ℂ)) (n / 2)).im = 0 := by
    intro he
    simp [rfft_im_nyquist (fun i => y i - loc i) n hn he]
  have hagree : ∀ k, k ≤ n / 2 →
      pack_rfft (unpack_rfft (fun k => rfft (fun i => y i - loc i) n k
          / ((evaluate_rfft_scale cov n k : ℝ) : ℂ)) n) n k
        * ((evaluate_rfft_scale cov n k : ℝ) : ℂ)
      = rfft (fun i => y i - loc i) n k := by
    intro k hk
    rw [pack_unpack_rfft _ n k hk hw0 hwn, div_mul_cancel₀ _ (hne k hk)]
  rw [irfft_congr _ (fun k => rfft (fun i => y i - loc i) n k) n j hagree,
    irfft_rfft (fun i => y i - loc i) n j hn hj]
  ring

/-- Witness for C2 at `n = 1`, `y = [2]`, `loc = [1]`, `cov = [1]`. -/
theorem transform_rfft_irfft_inverse_witness :
    (0 : ℕ) < 1
      ∧ (∀ k, k ≤ 1 / 2 → 0 < evaluate_rfft_scale (fun _ => (1 : ℝ)) 1 k)
      ∧ transform_irfft
          (transform_rfft (fun _ => (2 : ℝ)) (fun _ => (1 : ℝ))
            (evaluate_rfft_scale (fun _ => (1 : ℝ)) 1) 1)
          (fun _ => (1 : ℝ)) (evaluate_rfft_scale (fun _ => (1 : ℝ)) 1) 1 0 = 2 := by
  have hpos : ∀ k, k ≤ 1 / 2 → 0 < evaluate_rfft_scale (fun _ => (1 : ℝ)) 1 k := by
    intro k hk
    have hk0 : k = 0 := by omega
    subst hk0
    unfold evaluate_rfft_scale rfft dft
    rw [Finset.sum_range_one]
    norm_num [sqrt2]
  exact ⟨by norm_num, hpos,
    transform_rfft_irfft_inverse 1 (by norm_num) _ _ _ hpos 0 (by norm_num)⟩

/-- Embedding of `log_prob_stdnorm(y)` from `fft.py`: `-(log(2π) + y²) / 2`. -/
noncomputable def log_prob_stdnorm (y : ℝ) : ℝ := -(log2pi + y * y) / 2

/-- Embedding of `evaluate_rfft_log_abs_det_jacobian(size, rfft_scale=rfft_scale)` from
`fft.py` for an unbatched scale vector, after its shape assertion has passed:
`-∑_{k≤size//2} log scale_k - ∑_{k=1}^{(size+1)//2-1} log scale_k
 - log2·((size-1)//2) + size·log(size)/2` (the code's `imagidx` is `(size+1)//2`). -/
noncomputable def evaluate_rfft_log_abs_det_jacobian (size : ℕ) (rfft_scale : ℕ → ℝ) : ℝ :=
  -(∑ k ∈ Finset.range (size / 2 + 1), Real.log (rfft_scale k))
    - (∑ k ∈ Finset.Ico 1 ((size + 1) / 2), Real.log (rfft_scale k))
    - log2 * ((size - 1) / 2 : ℕ)
    + size * Real.log size / 2

/-- Embedding of `evaluate_rfft_log_abs_det_jacobian` from `fft.py` applied to a scale
array with one leading batch axis, in the regime `imagidx = (size + 1) // 2 = 2` (for
example `size = 4`).  The slice `rfft_scale[1:imagidx]` then selects *batch row 1*
rather than frequency indices `1..imagidx-1` of each batch element, its row sum becomes
a length-one axis, and NumPy broadcasting adds that single number to the per-batch
first term, so every batch element `b` receives the log-scale sum of batch row 1. -/
noncomputable def evaluate_rfft_log_abs_det_jacobian_batched (size : ℕ)
    (rfft_scale : ℕ → ℕ → ℝ) (b : ℕ) : ℝ :=
  -(∑ k ∈ Finset.range (size / 2 + 1), Real.log (rfft_scale b k))
    - (∑ k ∈ Finset.range (size / 2 + 1), Real.log (rfft_scale 1 k))
    - log2 * ((size - 1) / 2 : ℕ)
    + size * Real.log size / 2

/-- Batched scale input (batch row 0 all ones, batch row 1 all twos, `size = 4`)
witnessing that `evaluate_rfft_log_abs_det_jacobian` does not apply the claimed formula
per batch element. -/
def scaleBatchCounter : ℕ → ℕ → ℝ := fun b _ => if b = 0 then 1 else 2

/-- C1: refuted on the code for batched inputs.  For `size = 4` and the batched scale
`scaleBatchCounter`, the code's value at batch element 0 is `0` (it subtracts the
log-scale sum of batch row 1, because `rfft_scale[1:imagidx]` slices the batch axis),
whereas the claimed per-batch-element formula — the unbatched
`evaluate_rfft_log_abs_det_jacobian` of batch row 0, which the code does compute
correctly for unbatched inputs — gives `3·log 2 ≠ 0`. -/
theorem rfft_log_abs_det_jacobian_batch_code_bug :
    evaluate_rfft_log_abs_det_jacobian_batched 4 scaleBatchCounter 0 = 0
      ∧ evaluate_rfft_log_abs_det_jacobian 4 (scaleBatchCounter 0) = 3 * Real.log 2
      ∧ evaluate_rfft_log_abs_det_jacobian_batched 4 scaleBatchCounter 0
        ≠ evaluate_rfft_log_abs_det_jacobian 4 (scaleBatchCounter 0) := by
  have hlog4 : Real.log (4 : ℕ) = 2 * Real.log 2 := by
    rw [show ((4 : ℕ) : ℝ) = 2 ^ 2 by norm_num, Real.log_pow]
    push_cast
    ring
  have h1 : evaluate_rfft_log_abs_det_jacobian_batched 4 scaleBatchCounter 0 = 0 := by
    unfold evaluate_rfft_log_abs_det_jacobian_batched scaleBatchCounter log2
    rw [Finset.sum_range_succ, Finset.sum_range_succ, Finset.sum_range_one, hlog4]
    norm_num
    ring
  have h2 : evaluate_rfft_log_abs_det_jacobian 4 (scaleBatchCounter 0) = 3 * Real.log 2 := by
    unfold evaluate_rfft_log_abs_det_jacobian scaleBatchCounter log2
    rw [Finset.sum_range_succ, Finset.sum_range_succ, Finset.sum_range_one, hlog4]
    norm_num
    ring
  refine ⟨h1, h2, ?_⟩
  rw [h1, h2]
  have : 0 < 3 * Real.log 2 := by positivity
  exact this.ne

/-- Embedding of `np.fft.rfft2` applied to a real matrix of shape `height × width`:
entry `(k, l)` of the unnormalized 2D DFT (only `l ≤ width / 2` is ever consumed). -/
noncomputable def rfft2 (y : ℕ → ℕ → ℝ) (height width : ℕ) (k l : ℕ) : ℂ :=
  ∑ r ∈ Finset.range height, ∑ c ∈ Finset.range width,
    (y r c : ℂ) * Complex.exp (-(2 * (Real.pi : ℂ) * Complex.I)
      * ((k : ℂ) * r / height + (l : ℂ) * c / width))

/-- Embedding of `evaluate_rfft2_scale(cov)` from `fft.py`: `size * rfft2(cov).real / 2`
with `size = height * width`, doubled in turn at `(0, 0)`, at `(0, width//2)` when the
width is even, at `(height//2, 0)` when the height is even, and at
`(height//2, width//2)` when both are even (the four in-place `*= 2` updates), then
square-rooted elementwise. -/
noncomputable def evaluate_rfft2_scale (cov : ℕ → ℕ → ℝ) (height width : ℕ) (k l : ℕ) : ℝ :=
  Real.sqrt (
    (if height % 2 = 0 ∧ width % 2 = 0 ∧ k = height / 2 ∧ l = width / 2 then 2 else 1) *
    ((if height % 2 = 0 ∧ k = height / 2 ∧ l = 0 then 2 else 1) *
    ((if width % 2 = 0 ∧ k = 0 ∧ l = width / 2 then 2 else 1) *
    ((if k = 0 ∧ l = 0 then 2 else 1) *
    ((height : ℝ) * width * (rfft2 cov height width k l).re / 2)))))

/-- C5: for positive dimensions, `evaluate_rfft2_scale` equals the elementwise square
root of `size * rfft2(cov).real / 2` multiplied by 2 exactly at the four real-only
positions — `(0,0)` always, `(0, width/2)` for even width, `(height/2, 0)` for even
height, `(height/2, width/2)` when both are even — and left unmultiplied elsewhere. -/
theorem rfft2_scale_positions (cov : ℕ → ℕ → ℝ) (height width k l : ℕ)
    (hh : 0 < height) (hw : 0 < width) :
    evaluate_rfft2_scale cov height width k l
      = Real.sqrt (
          (if (k = 0 ∧ l = 0)
              ∨ (width % 2 = 0 ∧ k = 0 ∧ l = width / 2)
              ∨ (height % 2 = 0 ∧ k = height / 2 ∧ l = 0)
              ∨ (height % 2 = 0 ∧ width % 2 = 0 ∧ k = height / 2 ∧ l = width / 2)
            then 2 else 1)
          * ((height : ℝ) * width * (rfft2 cov height width k l).re / 2)) := by
  unfold evaluate_rfft2_scale
  split_ifs <;> first
    | (exfalso; omega)
    | (congr 1; ring)

/-- Witness for C5 at `height = width = 1`, `cov = [[1]]`, position `(0, 0)`. -/
theorem rfft2_scale_positions_witness :
    (0 : ℕ) < 1 ∧ (0 : ℕ) < 1
      ∧ evaluate_rfft2_scale (fun _ _ => (1 : ℝ)) 1 1 0 0
        = Real.sqrt (
            (if ((0 : ℕ) = 0 ∧ (0 : ℕ) = 0)
                ∨ (1 % 2 = 0 ∧ (0 : ℕ) = 0 ∧ (0 : ℕ) = 1 / 2)
                ∨ (1 % 2 = 0 ∧ (0 : ℕ) = 1 / 2 ∧ (0 : ℕ) = 0)
                ∨ (1 % 2 = 0 ∧ 1 % 2 = 0 ∧ (0 : ℕ) = 1 / 2 ∧ (0 : ℕ) = 1 / 2)
              then 2 else 1)
            * ((1 : ℕ) * ((1 : ℕ) : ℝ) * (rfft2 (fun _ _ => (1 : ℝ)) 1 1 0 0).re / 2)) :=
  ⟨by norm_num, by norm_num,
    rfft2_scale_positions (fun _ _ => (1 : ℝ)) 1 1 0 0 (by norm_num) (by norm_num)⟩

/-- Embedding of `evaluate_rfft2_log_abs_det_jacobian(width, rfft2_scale=rfft2_scale)`
from `fft.py` after its shape assertion has passed, with `height` read off the scale's
second-to-last axis.  The `parts` list contributes the first-column real and imaginary
sums, the doubled interior-column sum, and (for even width) the last-column real and
imaginary sums; `nterms = (size - 1) // 2` is decremented when both dimensions are
even, and the code's `ncomplex_horizontal`/`ncomplex_vertical` are `(width - 1) // 2`
and `(height - 1) // 2`. -/
noncomputable def evaluate_rfft2_log_abs_det_jacobian (width height : ℕ)
    (rfft2_scale : ℕ → ℕ → ℝ) : ℝ :=
  (-(∑ i ∈ Finset.range (height / 2 + 1), Real.log (rfft2_scale i 0))
      + -(∑ i ∈ Finset.Ico 1 ((height - 1) / 2 + 1), Real.log (rfft2_scale i 0))
      + -(2 * ∑ i ∈ Finset.range height,
            ∑ j ∈ Finset.Ico 1 ((width - 1) / 2 + 1), Real.log (rfft2_scale i j))
      + (if width % 2 = 0 then
          -(∑ i ∈ Finset.range (height / 2 + 1), Real.log (rfft2_scale i (width / 2)))
            + -(∑ i ∈ Finset.Ico 1 ((height - 1) / 2 + 1),
                  Real.log (rfft2_scale i (width / 2)))
        else 0))
    - log2 * ((if height % 2 = 0 ∧ width % 2 = 0
        then (width * height - 1) / 2 - 1 else (width * height - 1) / 2 : ℕ) : ℝ)
    + ((width * height : ℕ) : ℝ) * Real.log ((width * height : ℕ) : ℝ) / 2

/-- C6: for positive dimensions and a strictly positive scale, the 2D Jacobian equals
the claimed closed form: the two negated first-column log sums, minus twice the
interior-column log sum, the same two column terms at column `width / 2` when the width
is even, minus `log 2` times `(size - 1) // 2` (reduced by 1 exactly when both
dimensions are even), plus `size · log size / 2` with `size = height · width`. -/
theorem rfft2_log_abs_det_jacobian_formula (width height : ℕ) (rfft2_scale : ℕ → ℕ → ℝ)
    (hw : 1 ≤ width) (hh : 1 ≤ height) (hpos : ∀ i j, 0 < rfft2_scale i j) :
    evaluate_rfft2_log_abs_det_jacobian width height rfft2_scale
      = -(∑ i ∈ Finset.range (height / 2 + 1), Real.log (rfft2_scale i 0))
        - (∑ i ∈ Finset.Ico 1 ((height - 1) / 2 + 1), Real.log (rfft2_scale i 0))
        - 2 * (∑ i ∈ Finset.range height,
            ∑ j ∈ Finset.Ico 1 ((width - 1) / 2 + 1), Real.log (rfft2_scale i j))
        + (if width % 2 = 0 then
            -(∑ i ∈ Finset.range (height / 2 + 1), Real.log (rfft2_scale i (width / 2)))
              - (∑ i ∈ Finset.Ico 1 ((height - 1) / 2 + 1),
                  Real.log (rfft2_scale i (width / 2)))
          else 0)
        - Real.log 2 * (((height * width - 1) / 2
            - (if height % 2 = 0 ∧ width % 2 = 0 then 1 else 0) : ℕ) : ℝ)
        + ((height * width : ℕ) : ℝ) * Real.log ((height * width : ℕ) : ℝ) / 2 := by
  unfold evaluate_rfft2_log_abs_det_jacobian
  simp only [log2, Nat.mul_comm width height]
  split_ifs <;> (try simp only [Nat.sub_zero]) <;> ring

/-- Witness for C6 at `width = height = 1` and the constant scale 1. -/
theorem rfft2_log_abs_det_jacobian_formula_witness :
    1 ≤ 1
      ∧ (∀ i j : ℕ, 0 < (fun _ _ => (1 : ℝ)) i j)
      ∧ evaluate_rfft2_log_abs_det_jacobian 1 1 (fun _ _ => (1 : ℝ))
        = -(∑ i ∈ Finset.range (1 / 2 + 1), Real.log ((fun _ _ => (1 : ℝ)) i 0))
          - (∑ i ∈ Finset.Ico 1 ((1 - 1) / 2 + 1), Real.log ((fun _ _ => (1 : ℝ)) i 0))
          - 2 * (∑ i ∈ Finset.range 1,
              ∑ j ∈ Finset.Ico 1 ((1 - 1) / 2 + 1), Real.log ((fun _ _ => (1 : ℝ)) i j))
          + (if 1 % 2 = 0 then
              -(∑ i ∈ Finset.range (1 / 2 + 1), Real.log ((fun _ _ => (1 : ℝ)) i (1 / 2)))
                - (∑ i ∈ Finset.Ico 1 ((1 - 1) / 2 + 1),
                    Real.log ((fun _ _ => (1 : ℝ)) i (1 / 2)))
            else 0)
          - Real.log 2 * (((1 * 1 - 1) / 2
              - (if 1 % 2 = 0 ∧ 1 % 2 = 0 then 1 else 0) : ℕ) : ℝ)
          + ((1 * 1 : ℕ) : ℝ) * Real.log ((1 * 1 : ℕ) : ℝ) / 2 :=
  ⟨le_refl 1, fun _ _ => one_pos,
    rfft2_log_abs_det_jacobian_formula 1 1 (fun _ _ => (1 : ℝ)) (le_refl 1) (le_refl 1)
      (fun _ _ => one_pos)⟩

/-- Embedding of `unpack_rfft2(z, shape)` from `fft.py`: column 0 is the 1D unpacking
of the first (real) column, columns `1 .. (width-1)//2` are the real parts of the
interior coefficients, the next `(width-1)//2` columns their imaginary parts, and (for
even width) the final column is the 1D unpacking of the Nyquist column. -/
def unpack_rfft2 (z : ℕ → ℕ → ℂ) (height width : ℕ) : ℕ → ℕ → ℝ := fun i c =>
  if c = 0 then unpack_rfft (fun r => z r 0) height i
  else if c ≤ (width - 1) / 2 then (z i c).re
  else if c ≤ 2 * ((width - 1) / 2) then (z i (c - (width - 1) / 2)).im
  else unpack_rfft (fun r => z r (width / 2)) height i

/-- Embedding of `pack_rfft2(z)` from `fft.py`: column 0 is the full-FFT 1D packing of
the first column of `z`, columns `1 .. (width-1)//2` combine the real block with the
imaginary block (`z[..., l] + i·z[..., (width-1)//2 + l]`), and for even width column
`width // 2` is the full-FFT 1D packing of the last column of `z`.  Entries outside the
`height × (width // 2 + 1)` result shape are left at the allocation default. -/
def pack_rfft2 (z : ℕ → ℕ → ℝ) (height width : ℕ) : ℕ → ℕ → ℂ := fun i l =>
  if l = 0 then pack_rfft_full (fun r => z r 0) height i
  else if l ≤ (width - 1) / 2 then
    ((z i l : ℝ) : ℂ) + Complex.I * ((z i ((width - 1) / 2 + l) : ℝ) : ℂ)
  else if width % 2 = 0 ∧ l = width / 2 then pack_rfft_full (fun r => z r (width - 1)) height i
  else 0

/-- Hermitian extension along the trailing axis consumed by `np.fft.irfft2`. -/
noncomputable def extendRfft2 (c : ℕ → ℕ → ℂ) (height width : ℕ) (k l : ℕ) : ℂ :=
  if l ≤ width / 2 then c k l
  else (starRingEnd ℂ) (c ((height - k) % height) (width - l))

/-- Embedding of `np.fft.irfft2 c (height, width)`: the inverse 2D DFT of the Hermitian
extension of the half spectrum, divided by `height * width`. -/
noncomputable def irfft2 (c : ℕ → ℕ → ℂ) (height width : ℕ) (r s : ℕ) : ℝ :=
  (∑ k ∈ Finset.range height, ∑ l ∈ Finset.range width,
      extendRfft2 c height width k l * Complex.exp (2 * (Real.pi : ℂ) * Complex.I
        * ((k : ℂ) * r / height + (l : ℂ) * s / width))).re / (height * width)

/-- Embedding of `transform_rfft2(y, loc, ...)` from `fft.py` with the resolved scale
passed explicitly: `unpack_rfft2(rfft2(y - loc) / rfft2_scale, y.shape)`. -/
noncomputable def transform_rfft2 (y loc : ℕ → ℕ → ℝ) (rfft2_scale : ℕ → ℕ → ℝ)
    (height width : ℕ) : ℕ → ℕ → ℝ :=
  unpack_rfft2 (fun k l => rfft2 (fun r c => y r c - loc r c) height width k l
    / ((rfft2_scale k l : ℝ) : ℂ)) height width

/-- Embedding of `transform_irfft2(z, loc, ...)` from `fft.py` with the resolved scale
passed explicitly: `irfft2(pack_rfft2(z) * rfft2_scale, z.shape[-2:]) + loc`. -/
noncomputable def transform_irfft2 (z loc : ℕ → ℕ → ℝ) (rfft2_scale : ℕ → ℕ → ℝ)
    (height width : ℕ) : ℕ → ℕ → ℝ := fun r s =>
  irfft2 (fun k l => pack_rfft2 z height width k l * ((rfft2_scale k l : ℝ) : ℂ))
    height width r s + loc r s

/-- Real vector carrying its trailing-axis length, for the argument-resolution layer. -/
structure RVec where
  len : ℕ
  val : ℕ → ℝ

/-- Real matrix carrying its two trailing-axis lengths. -/
structure RMat where
  rows : ℕ
  cols : ℕ
  val : ℕ → ℕ → ℝ

/-- Error taxonomy of the module: the `ValueError` raised by the `_get_rfft_scale`
family when not exactly one of `cov` and the precomputed scale is given, and the
`AssertionError` raised when a supplied scale has the wrong trailing length. -/
inductive FftError where
  | invalidArgumentCombination
  | shapeMismatch
deriving DecidableEq

/-- Embedding of `_get_rfft_scale(cov, rfft_scale)` from `fft.py`: raises when both or
neither argument is given, returns the supplied scale when present, and otherwise
derives it from the covariance row. -/
noncomputable def _get_rfft_scale : Option RVec → Option RVec → Except FftError RVec
  | none, none => .error .invalidArgumentCombination
  | some _, some _ => .error .invalidArgumentCombination
  | none, some s => .ok s
  | some c, none => .ok ⟨c.len / 2 + 1, fun k => evaluate_rfft_scale c.val c.len k⟩

/-- Embedding of `_get_rfft2_scale(cov, rfft2_scale)` from `fft.py`. -/
noncomputable def _get_rfft2_scale : Option RMat → Option RMat → Except FftError RMat
  | none, none => .error .invalidArgumentCombination
  | some _, some _ => .error .invalidArgumentCombination
  | none, some s => .ok s
  | some c, none =>
    .ok ⟨c.rows, c.cols / 2 + 1, fun k l => evaluate_rfft2_scale c.val c.rows c.cols k l⟩

/-- Embedding of the full signature of `transform_rfft(y, loc, cov=..., rfft_scale=...)`
including the argument resolution. -/
noncomputable def transform_rfftE (y loc : RVec) (cov rfft_scale : Option RVec) :
    Except FftError RVec :=
  match _get_rfft_scale cov rfft_scale with
  | .error e => .error e
  | .ok s => .ok ⟨y.len, transform_rfft y.val loc.val s.val y.len⟩

/-- Embedding of the full signature of `transform_irfft(z, loc, cov=..., rfft_scale=...)`. -/
noncomputable def transform_irfftE (z loc : RVec) (cov rfft_scale : Option RVec) :
    Except FftError RVec :=
  match _get_rfft_scale cov rfft_scale with
  | .error e => .error e
  | .ok s => .ok ⟨z.len, transform_irfft z.val loc.val s.val z.len⟩

/-- Embedding of the full signature of
`evaluate_rfft_log_abs_det_jacobian(size, cov=..., rfft_scale=...)`, whose
`assert rfft_scale.shape[-1] == size // 2 + 1` is modelled by the `shapeMismatch`
error. -/
noncomputable def evaluate_rfft_log_abs_det_jacobianE (size : ℕ)
    (cov rfft_scale : Option RVec) : Except FftError ℝ :=
  match _get_rfft_scale cov rfft_scale with
  | .error e => .error e
  | .ok s =>
    if s.len = size / 2 + 1 then .ok (evaluate_rfft_log_abs_det_jacobian size s.val)
    else .error .shapeMismatch

/-- Embedding of the full signature of
`evaluate_log_prob_rfft(y, loc, cov=..., rfft_scale=...)`: resolves the scale once,
then sums the standard-normal log density of the transformed noise and adds the
Jacobian evaluated with the resolved scale. -/
noncomputable def evaluate_log_prob_rfftE (y loc : RVec) (cov rfft_scale : Option RVec) :
    Except FftError ℝ :=
  match _get_rfft_scale cov rfft_scale with
  | .error e => .error e
  | .ok s =>
    match evaluate_rfft_log_abs_det_jacobianE y.len none (some s) with
    | .error e => .error e
    | .ok ladj => .ok ((∑ i ∈ Finset.range y.len,
        log_prob_stdnorm (transform_rfft y.val loc.val s.val y.len i)) + ladj)

/-- Embedding of the full signature of `transform_rfft2(y, loc, cov=..., rfft2_scale=...)`. -/
noncomputable def transform_rfft2E (y loc : RMat) (cov rfft2_scale : Option RMat) :
    Except FftError RMat :=
  match _get_rfft2_scale cov rfft2_scale with
  | .error e => .error e
  | .ok s => .ok ⟨y.rows, y.cols, transform_rfft2 y.val loc.val s.val y.rows y.cols⟩

/-- Embedding of the full signature of `transform_irfft2(z, loc, cov=..., rfft2_scale=...)`. -/
noncomputable def transform_irfft2E (z loc : RMat) (cov rfft2_scale : Option RMat) :
    Except FftError RMat :=
  match _get_rfft2_scale cov rfft2_scale with
  | .error e => .error e
  | .ok s => .ok ⟨z.rows, z.cols, transform_irfft2 z.val loc.val s.val z.rows z.cols⟩

/-- Embedding of the full signature of
`evaluate_rfft2_log_abs_det_jacobian(width, cov=..., rfft2_scale=...)`, whose
`assert rfft2_scale.shape[-1] == width // 2 + 1` is modelled by the `shapeMismatch`
error; the height is read off the resolved scale's second-to-last axis. -/
noncomputable def evaluate_rfft2_log_abs_det_jacobianE (width : ℕ)
    (cov rfft2_scale : Option RMat) : Except FftError ℝ :=
  match _get_rfft2_scale cov rfft2_scale with
  | .error e => .error e
  | .ok s =>
    if s.cols = width / 2 + 1 then
      .ok (evaluate_rfft2_log_abs_det_jacobian width s.rows s.val)
    else .error .shapeMismatch

/-- Embedding of the full signature of
`evaluate_log_prob_rfft2(y, loc, cov=..., rfft2_scale=...)`. -/
noncomputable def evaluate_log_prob_rfft2E (y loc : RMat) (cov rfft2_scale : Option RMat) :
    Except FftError ℝ :=
  match _get_rfft2_scale cov rfft2_scale with
  | .error e => .error e
  | .ok s =>
    match evaluate_rfft2_log_abs_det_jacobianE y.cols none (some s) with
    | .error e => .error e
    | .ok ladj => .ok ((∑ r ∈ Finset.range y.rows, ∑ c ∈ Finset.range y.cols,
        log_prob_stdnorm (transform_rfft2 y.val loc.val s.val y.rows y.cols r c)) + ladj)

/-- C7: every 1D and 2D entry point that accepts a covariance or a precomputed scale
returns the `invalidArgumentCombination` error when given both or neither, and never
returns that error when given exactly one of the two. -/
theorem mutually_exclusive_cov_scale (y loc c s : RVec) (ym locm cm sm : RMat)
    (size width : ℕ) :
    (transform_rfftE y loc none none = .error .invalidArgumentCombination
      ∧ transform_rfftE y loc (some c) (some s) = .error .invalidArgumentCombination
      ∧ transform_rfftE y loc (some c) none ≠ .error .invalidArgumentCombination
      ∧ transform_rfftE y loc none (some s) ≠ .error .invalidArgumentCombination)
    ∧ (transform_irfftE y loc none none = .error .invalidArgumentCombination
      ∧ transform_irfftE y loc (some c) (some s) = .error .invalidArgumentCombination
      ∧ transform_irfftE y loc (some c) none ≠ .error .invalidArgumentCombination
      ∧ transform_irfftE y loc none (some s) ≠ .error .invalidArgumentCombination)
    ∧ (evaluate_log_prob_rfftE y loc none none = .error .invalidArgumentCombination
      ∧ evaluate_log_prob_rfftE y loc (some c) (some s) = .error .invalidArgumentCombination
      ∧ evaluate_log_prob_rfftE y loc (some c) none ≠ .error .invalidArgumentCombination
      ∧ evaluate_log_prob_rfftE y loc none (some s) ≠ .error .invalidArgumentCombination)
    ∧ (evaluate_rfft_log_abs_det_jacobianE size none none
        = .error .invalidArgumentCombination
      ∧ evaluate_rfft_log_abs_det_jacobianE size (some c) (some s)
        = .error .invalidArgumentCombination
      ∧ evaluate_rfft_log_abs_det_jacobianE size (some c) none
        ≠ .error .invalidArgumentCombination
      ∧ evaluate_rfft_log_abs_det_jacobianE size none (some s)
        ≠ .error .invalidArgumentCombination)
    ∧ (transform_rfft2E ym locm none none = .error .invalidArgumentCombination
      ∧ transform_rfft2E ym locm (some cm) (some sm) = .error .invalidArgumentCombination
      ∧ transform_rfft2E ym locm (some cm) none ≠ .error .invalidArgumentCombination
      ∧ transform_rfft2E ym locm none (some sm) ≠ .error .invalidArgumentCombination)
    ∧ (transform_irfft2E ym locm none none = .error .invalidArgumentCombination
      ∧ transform_irfft2E ym locm (some cm) (some sm) = .error .invalidArgumentCombination
      ∧ transform_irfft2E ym locm (some cm) none ≠ .error .invalidArgumentCombination
      ∧ transform_irfft2E ym locm none (some sm) ≠ .error .invalidArgumentCombination)
    ∧ (evaluate_log_prob_rfft2E ym locm none none = .error .invalidArgumentCombination
      ∧ evaluate_log_prob_rfft2E ym locm (some cm) (some sm)
        = .error .invalidArgumentCombination
      ∧ evaluate_log_prob_rfft2E ym locm (some cm) none
        ≠ .error .invalidArgumentCombination
      ∧ evaluate_log_prob_rfft2E ym locm none (some sm)
        ≠ .error .invalidArgumentCombination)
    ∧ (evaluate_rfft2_log_abs_det_jacobianE width none none
        = .error .invalidArgumentCombination
      ∧ evaluate_rfft2_log_abs_det_jacobianE width (some cm) (some sm)
        = .error .invalidArgumentCombination
      ∧ evaluate_rfft2_log_abs_det_jacobianE width (some cm) none
        ≠ .error .invalidArgumentCombination
      ∧ evaluate_rfft2_log_abs_det_jacobianE width none (some sm)
        ≠ .error .invalidArgumentCombination) := by
  refine ⟨⟨rfl, rfl, ?_, ?_⟩, ⟨rfl, rfl, ?_, ?_⟩, ⟨rfl, rfl, ?_, ?_⟩, ⟨rfl, rfl, ?_, ?_⟩,
    ⟨rfl, rfl, ?_, ?_⟩, ⟨rfl, rfl, ?_, ?_⟩, ⟨rfl, rfl, ?_, ?_⟩, ⟨rfl, rfl, ?_, ?_⟩⟩ <;>
    simp only [transform_rfftE, transform_irfftE, evaluate_log_prob_rfftE,
      evaluate_rfft_log_abs_det_jacobianE, transform_rfft2E, transform_irfft2E,
      evaluate_log_prob_rfft2E, evaluate_rfft2_log_abs_det_jacobianE,
      _get_rfft_scale, _get_rfft2_scale] <;>
    (try split_ifs) <;>
    simp

/-- C8: calling a Jacobian evaluator with a supplied precomputed scale whose trailing
dimension is not `size // 2 + 1` (1D) or `width // 2 + 1` (2D) fails with the
`shapeMismatch` assertion error and returns no partial result, while a matching
trailing dimension passes the assertion and yields the Jacobian value. -/
theorem scale_shape_mismatch (size width : ℕ) (s : RVec) (m : RMat) :
    (s.len ≠ size / 2 + 1 →
        evaluate_rfft_log_abs_det_jacobianE size none (some s) = .error .shapeMismatch)
      ∧ (s.len = size / 2 + 1 →
        evaluate_rfft_log_abs_det_jacobianE size none (some s)
          = .ok (evaluate_rfft_log_abs_det_jacobian size s.val))
      ∧ (m.cols ≠ width / 2 + 1 →
        evaluate_rfft2_log_abs_det_jacobianE width none (some m) = .error .shapeMismatch)
      ∧ (m.cols = width / 2 + 1 →
        evaluate_rfft2_log_abs_det_jacobianE width none (some m)
          = .ok (evaluate_rfft2_log_abs_det_jacobian width m.rows m.val)) := by
  refine ⟨?_, ?_, ?_, ?_⟩ <;> intro h <;>
    simp [evaluate_rfft_log_abs_det_jacobianE, evaluate_rfft2_log_abs_det_jacobianE,
      _get_rfft_scale, _get_rfft2_scale, h]

/-- Witness for C8 at `size = 4` with a length-2 scale (mismatching `4 // 2 + 1 = 3`)
and a length-3 scale (matching). -/
theorem scale_shape_mismatch_witness :
    ((RVec.mk 2 fun _ => 1).len ≠ 4 / 2 + 1
        ∧ evaluate_rfft_log_abs_det_jacobianE 4 none (some (RVec.mk 2 fun _ => 1))
          = .error .shapeMismatch)
      ∧ ((RVec.mk 3 fun _ => 1).len = 4 / 2 + 1
        ∧ evaluate_rfft_log_abs_det_jacobianE 4 none (some (RVec.mk 3 fun _ => 1))
          = .ok (evaluate_rfft_log_abs_det_jacobian 4 (RVec.mk 3 fun _ => 1).val)) :=
  ⟨⟨by norm_num,
      (scale_shape_mismatch 4 4 (RVec.mk 2 fun _ => 1) (RMat.mk 1 1 fun _ _ => 1)).1
        (by norm_num)⟩,
    ⟨by norm_num,
      (scale_shape_mismatch 4 4 (RVec.mk 3 fun _ => 1) (RMat.mk 1 1 fun _ _ => 1)).2.1
        (by norm_num)⟩⟩
